import Mathlib

/-!
Shallow embedding of the rjs dependency resolver and lockfile engine
(`src/dependency/mod.rs`) together with the registry data model
(`src/registry/mod.rs`).

Rust `HashMap`s are modelled as association lists whose keys are unique;
`HashMap::insert` replaces the value of an existing key in place.  The
concurrent batched queue drain of `resolve_dependencies_internal` is
modelled by its sequential FIFO serialization (one batch item at a time,
nested dependencies appended behind the remaining queue), and effects are
made explicit: registry interactions are returned as event lists and the
filesystem is an explicit set of existing directories plus a failure
oracle.
-/

namespace RJS

/-- Modelled from the spec: the semver engine (§4.B) is the external
`semver` crate, not code under `src/`.  We model plain
`major.minor.patch` versions and the range operators the spec's
scenarios exercise: the universal range `*` (`VersionReq::STAR`), caret
ranges `^x.y.z`, and bare versions `x.y.z` (which the crate's grammar
reads as caret comparators).  Any other string fails to parse, as
`"latest"` does in the crate. -/
structure SemVer where
  major : Nat
  minor : Nat
  patch : Nat
  deriving DecidableEq, Repr

/-- Semver order on plain versions (lexicographic on major, minor, patch). -/
def vLe (a b : SemVer) : Bool :=
  decide (a.major < b.major ∨ (a.major = b.major ∧
    (a.minor < b.minor ∨ (a.minor = b.minor ∧ a.patch ≤ b.patch))))

/-- Digit test for version characters. -/
def isDigitCh (c : Char) : Bool := decide ('0' ≤ c ∧ c ≤ '9')

/-- Numeric value of a digit list (most significant first). -/
def digitsVal (cs : List Char) : Nat :=
  cs.foldl (fun n c => n * 10 + (c.toNat - '0'.toNat)) 0

/-- A strict semver numeric identifier: nonempty, all digits, and no
leading zero unless the identifier is exactly `0`. -/
def parseNumId (cs : List Char) : Option Nat :=
  match cs with
  | [] => none
  | c :: rest =>
    if cs.all isDigitCh then
      if c = '0' ∧ rest ≠ [] then none else some (digitsVal cs)
    else none

/-- Split a character list on `.` separators. -/
def splitDots (cs : List Char) : List (List Char) :=
  match cs with
  | [] => [[]]
  | c :: rest =>
    if c = '.' then [] :: splitDots rest
    else
      match splitDots rest with
      | [] => [[c]]
      | g :: gs => (c :: g) :: gs

/-- `Version::parse`: accepts exactly `major.minor.patch` with strict
numeric components. -/
def SemVer.parse (s : String) : Option SemVer :=
  match splitDots s.toList with
  | [a, b, c] =>
    match parseNumId a, parseNumId b, parseNumId c with
    | some x, some y, some z => some ⟨x, y, z⟩
    | _, _, _ => none
  | _ => none

/-- A parsed version requirement (the fragment of `VersionReq` the spec
exercises): the universal range, or a caret comparator. -/
inductive Req where
  | star : Req
  | caret : SemVer → Req
  deriving DecidableEq, Repr

/-- `VersionReq::parse`: `*` is the universal range, `^x.y.z` and bare
`x.y.z` are caret comparators (the crate's default operator is caret);
anything else — in particular a dist-tag such as `latest` — fails. -/
def Req.parse (s : String) : Option Req :=
  if s = "*" then some .star
  else if s.toList.head? = some '^' then
    match SemVer.parse (String.mk s.toList.tail) with
    | some v => some (.caret v)
    | none => none
  else
    match SemVer.parse s with
    | some v => some (.caret v)
    | none => none

/-- Caret compatibility: same major (and same minor when major is 0,
exact when major and minor are both 0), and at least the base version. -/
def caretMatches (r v : SemVer) : Bool :=
  if r.major > 0 then v.major == r.major && vLe r v
  else if r.minor > 0 then v.major == 0 && v.minor == r.minor && vLe r v
  else v == r

/-- `VersionReq::matches`. -/
def Req.matches : Req → SemVer → Bool
  | .star, _ => true
  | .caret r, v => caretMatches r v

/-- Association-list lookup (`HashMap::get`). -/
def lookupA {α : Type} (l : List (String × α)) (k : String) : Option α :=
  match l with
  | [] => none
  | (k', v) :: rest => if k' = k then some v else lookupA rest k

/-- Association-list insert (`HashMap::insert`): replaces the value at an
existing key, otherwise appends the binding. -/
def insertA {α : Type} (l : List (String × α)) (k : String) (v : α) :
    List (String × α) :=
  if (lookupA l k).isSome then
    l.map (fun p => if p.1 = k then (k, v) else p)
  else l ++ [(k, v)]

/-- `DistInfo` from `src/registry/mod.rs`: the distribution block of a
registry version record. -/
structure DistInfo where
  shasum : String
  tarball : String
  deriving DecidableEq, Repr

/-- `VersionInfo` from `src/registry/mod.rs`. -/
structure VersionInfo where
  version : String
  dependencies : List (String × String)
  devDependencies : List (String × String)
  dist : DistInfo
  deriving DecidableEq, Repr

/-- `PackageInfo` from `src/registry/mod.rs`: the registry record for a
name. -/
structure PackageInfo where
  name : String
  versions : List (String × VersionInfo)
  distTags : List (String × String)
  deriving DecidableEq, Repr

/-- `Package` from `src/dependency/mod.rs` lines 20–25.  Note that it
carries no distribution block: neither a tarball URL nor a digest
survives resolution. -/
structure Package where
  name : String
  version : String
  dependencies : List (String × String)
  devDependencies : List (String × String)
  deriving DecidableEq, Repr

/-- The registry as a mapping from package name to its record
(`get_package_info` succeeds exactly on mapped names). -/
abbrev Registry := List (String × PackageInfo)

/-- The shared state of `DependencyResolver`: the visited set, the
package cache, and the deduplication index (per name, a list of
`(parsed version, version string, originating range)` triples sorted
descending by version). -/
structure ResolverState where
  visited : List String
  cache : List (String × Package)
  dedup : List (String × List (SemVer × String × String))
  deriving DecidableEq, Repr

/-- A fresh resolver (`DependencyResolver::new`): all three structures
empty. -/
def initState : ResolverState := ⟨[], [], []⟩

/-- The synthetic package `resolve_package` returns for an
already-visited request (lines 167–174). -/
def dummyPackage (name : String) : Package := ⟨name, "0.0.0", [], []⟩

/-- First (hence highest, the list being sorted descending) stored
version matching the requirement. -/
def findFirstMatch (req : Req) : List (SemVer × String × String) → Option String
  | [] => none
  | (v, vs, _) :: rest => if req.matches v then some vs else findFirstMatch req rest

/-- `DependencyDeduplication::find_compatible_version`: `none` when the
requirement does not parse; otherwise the highest registered version of
`name` matching it. -/
def findCompatibleVersion (dedup : List (String × List (SemVer × String × String)))
    (name req : String) : Option String :=
  match Req.parse req with
  | none => none
  | some r =>
    match lookupA dedup name with
    | none => none
    | some versions => findFirstMatch r versions

/-- Insert a triple into a descending-sorted version list (the effect of
`push` followed by a stable descending sort). -/
def insertDesc (x : SemVer × String × String) :
    List (SemVer × String × String) → List (SemVer × String × String)
  | [] => [x]
  | y :: rest => if vLe x.1 y.1 then y :: insertDesc x rest else x :: y :: rest

/-- `DependencyDeduplication::register_package`: a no-op when the version
string does not parse (the caller discards the error) or when the exact
version is already registered. -/
def registerPackage (dedup : List (String × List (SemVer × String × String)))
    (name vstr req : String) : List (String × List (SemVer × String × String)) :=
  match SemVer.parse vstr with
  | none => dedup
  | some v =>
    let versions := (lookupA dedup name).getD []
    if versions.any (fun t => t.1 == v) then dedup
    else insertA dedup name (insertDesc (v, vstr, req) versions)

/-- One filtering step of version selection (`resolve_package` lines
206–218): keep a registry version key when it parses as semver and
matches the requirement. -/
def candOf (req : Req) (v : String) : Option (String × SemVer) :=
  match SemVer.parse v with
  | some p => if req.matches p then some (v, p) else none
  | none => none

/-- Version-selection candidates: registry version keys that parse as
semver and match the requirement, paired with their parse. -/
def candidateList (req : Req) (keys : List String) : List (String × SemVer) :=
  keys.filterMap (candOf req)

/-- One comparison step of `Iterator::max_by`: on ties the later element
wins, as in the Rust iterator. -/
def maxStep (acc : Option (String × SemVer)) (c : String × SemVer) :
    Option (String × SemVer) :=
  match acc with
  | none => some c
  | some m => if vLe m.2 c.2 then some c else some m

/-- `Iterator::max_by` on parsed versions. -/
def maxBySemVer (l : List (String × SemVer)) : Option (String × SemVer) :=
  l.foldl maxStep none

/-- The version `resolve_package` selects from a registry record: parse
the requirement (falling back to `VersionReq::STAR`), filter the version
keys, and take the semver maximum. -/
def bestMatching (info : PackageInfo) (req : String) : Option String :=
  (maxBySemVer
    (candidateList ((Req.parse req).getD .star) (info.versions.map Prod.fst))).map Prod.fst

/-- Errors surfaced by `resolve_package`: a failed metadata fetch, or no
version matching the requirement. -/
inductive RErr where
  | notFound : String → RErr
  | noMatchingVersion : String → String → RErr
  deriving DecidableEq, Repr

/-- The package `resolve_package` builds from the selected version
(lines 231–239): the chosen version's dependency maps, looked up in the
registry record. -/
def mkResolved (name v : String) (info : PackageInfo) : Package :=
  ⟨name, v, ((lookupA info.versions v).getD ⟨v, [], [], ⟨"", ""⟩⟩).dependencies,
   ((lookupA info.versions v).getD ⟨v, [], [], ⟨"", ""⟩⟩).devDependencies⟩

/-- `DependencyResolver::resolve_package` (lines 153–248), with registry
interactions made explicit: the third component lists the names fetched
through `get_package_info`.  Order of effects as in the source: package
cache, then the visited set (already-visited requests return the
synthetic package), then marking visited, then the deduplication index,
and only then the registry fetch and version selection. -/
def resolvePackage (reg : Registry) (st : ResolverState) (name req : String) :
    Except RErr Package × ResolverState × List String :=
  let key := name ++ "@" ++ req
  match lookupA st.cache key with
  | some pkg => (.ok pkg, st, [])
  | none =>
    if st.visited.contains key then
      (.ok (dummyPackage name), st, [])
    else
      let st1 : ResolverState := { st with visited := key :: st.visited }
      let viaDedup :=
        match findCompatibleVersion st1.dedup name req with
        | some v => lookupA st1.cache (name ++ "@" ++ v)
        | none => none
      match viaDedup with
      | some pkg => (.ok pkg, st1, [])
      | none =>
        match lookupA reg name with
        | none => (.error (.notFound name), st1, [name])
        | some info =>
          match bestMatching info req with
          | none => (.error (.noMatchingVersion name req), st1, [name])
          | some v =>
            let pkg : Package := mkResolved name v info
            let st2 : ResolverState := { st1 with dedup := registerPackage st1.dedup name v req }
            let st3 : ResolverState := { st2 with cache := insertA st2.cache key pkg }
            (.ok pkg, st3, [name])

/-- Enqueue the nested dependencies of a freshly resolved package
(`resolve_dependencies_internal` lines 377–385): each dependency whose
`<name>@<range>` key is not yet visited is marked visited and appended
to the work queue. -/
def enqueueDeps (st : ResolverState) (queue : List (String × String))
    (deps : List (String × String)) : ResolverState × List (String × String) :=
  deps.foldl (fun acc d =>
    let k := d.1 ++ "@" ++ d.2
    if acc.1.visited.contains k then acc
    else ({ acc.1 with visited := k :: acc.1.visited }, acc.2 ++ [d])) (st, queue)

/-- Sequential serialization of the batched queue drain of
`resolve_dependencies_internal` (lines 350–402): pop a request, resolve
it, record the result under `<name>@<range>` (a failed resolution is
logged and dropped), and enqueue the unvisited nested dependencies.
`fuel` bounds the number of steps; `none` means the fuel was exhausted
before the queue drained. -/
def drainQueue (reg : Registry) : Nat → ResolverState → List (String × String) →
    List (String × Package) → Option (List (String × Package) × ResolverState)
  | _, st, [], acc => some (acc, st)
  | 0, _, _ :: _, _ => none
  | fuel + 1, st, (name, req) :: rest, acc =>
    match resolvePackage reg st name req with
    | (.ok pkg, st1, _) =>
      let next := enqueueDeps st1 rest pkg.dependencies
      drainQueue reg fuel next.1 next.2 (insertA acc (name ++ "@" ++ req) pkg)
    | (.error _, st1, _) => drainQueue reg fuel st1 rest acc

/-- `resolve_dependencies_internal` (lines 337–408): seed the queue with
the root's dependency map (the seeds are not pre-marked visited) and
drain it from a fresh resolver state. -/
def resolveDependenciesInternal (reg : Registry) (root : Package) (fuel : Nat) :
    Option (List (String × Package)) :=
  (drainQueue reg fuel initState root.dependencies []).map Prod.fst

/-- `Version::parse(..).unwrap_or_else(|_| Version::new(0, 0, 0))`. -/
def verOf (s : String) : SemVer := (SemVer.parse s).getD ⟨0, 0, 0⟩

/-- `VersionReq::parse(..).unwrap_or(VersionReq::STAR)`. -/
def lenientReq (s : String) : Req := (Req.parse s).getD .star

/-- The satisfaction test `deduplicate_tree` applies (lines 292–299):
both the range and the version are parsed leniently. -/
def satisfiesLenient (range version : String) : Bool :=
  (lenientReq range).matches (verOf version)

/-- Deduplicate a string list keeping first occurrences in order (the
name grouping of lines 255–263; group order is a serialization of the
`HashMap` iteration). -/
def dedupFirst : List String → List String
  | [] => []
  | x :: rest => x :: (dedupFirst rest).filter (fun y => !(y == x))

/-- Group labels of a tree: the node names in first-appearance order. -/
def groupNames (deps : List (String × Package)) : List String :=
  dedupFirst (deps.map (fun kp => kp.2.name))

/-- The group of a name: all tree bindings whose package has that name. -/
def groupOf (deps : List (String × Package)) (n : String) : List (String × Package) :=
  deps.filter (fun kp => kp.2.name == n)

/-- Descending version comparison used to sort a group (lines 274–280),
parsing versions leniently. -/
def groupGE (x y : String × Package) : Prop :=
  vLe (verOf y.2.version) (verOf x.2.version) = true

instance : DecidableRel groupGE := fun x y => by
  unfold groupGE
  infer_instance

/-- Sort a group newest-first (the stable descending `sort_by`). -/
def sortGroupDesc (g : List (String × Package)) : List (String × Package) :=
  List.insertionSort groupGE g

/-- `tree.dependencies.remove(key)`. -/
def removeKey (deps : List (String × Package)) (k : String) : List (String × Package) :=
  deps.filter (fun kp => !(kp.1 == k))

/-- Rewrite of a single node (lines 312–319): when its dependency map
contains the name, that entry is replaced by the preferred version. -/
def rwOne (n v : String) (kp : String × Package) : String × Package :=
  if (lookupA kp.2.dependencies n).isSome then
    (kp.1, { kp.2 with dependencies := insertA kp.2.dependencies n v })
  else kp

/-- The rewrite of lines 312–319 over the whole tree. -/
def rewriteDeps (deps : List (String × Package)) (n v : String) : List (String × Package) :=
  deps.map (rwOne n v)

/-- One iteration of the inner loop of `deduplicate_tree` (lines
286–321) for a lower-versioned group member at tree key `lkey`: if any
current node's dependency entry on the preferred package's name matches
the preferred version, the member is removed and every remaining
dependency entry on that name is rewritten to the preferred version. -/
def dedupStep (preferred : Package) (deps : List (String × Package)) (lkey : String) :
    List (String × Package) :=
  let canDedup := deps.any (fun kp =>
    match lookupA kp.2.dependencies preferred.name with
    | some r => satisfiesLenient r preferred.version
    | none => false)
  if canDedup then rewriteDeps (removeKey deps lkey) preferred.name preferred.version
  else deps

/-- Process one name group (lines 269–322): singleton groups are
skipped; otherwise the group is sorted newest-first, its head becomes
the preferred package, and each remaining member is examined in turn. -/
def processGroup (deps : List (String × Package)) (group : List (String × Package)) :
    List (String × Package) :=
  if group.length ≤ 1 then deps
  else
    match sortGroupDesc group with
    | [] => deps
    | pref :: rest => rest.foldl (fun d kp => dedupStep pref.2 d kp.1) deps

/-- `DependencyResolver::deduplicate_tree` (lines 251–326).  The groups
are computed once from the incoming tree; the tree is then rewritten
group by group. -/
def deduplicateTree (deps : List (String × Package)) : List (String × Package) :=
  (groupNames deps).foldl (fun d n => processGroup d (groupOf deps n)) deps

/-- `DependencyResolver::resolve_dependencies` (lines 330–334): the
internal drain followed by the deduplication pass. -/
def resolveDependencies (reg : Registry) (root : Package) (fuel : Nat) :
    Option (List (String × Package)) :=
  (resolveDependenciesInternal reg root fuel).map deduplicateTree

/-- `install_tree` (lines 411–453) with the filesystem made explicit:
`existing` holds the package directories already present under
`node_modules`, and `failOn` is the oracle of package names whose
directory creation or manifest write fails.  The `?` operators in the
source propagate the first filesystem error, aborting the loop; on
success the names are collected in iteration order (a node whose
directory already exists is still pushed). -/
def installTree (deps : List (String × Package)) (existing : List String)
    (failOn : List String) : Except String (List String) :=
  match deps with
  | [] => .ok []
  | (_, pkg) :: rest =>
    if existing.contains pkg.name then
      match installTree rest existing failOn with
      | .ok names => .ok (pkg.name :: names)
      | .error e => .error e
    else if failOn.contains pkg.name then
      .error ("failed to create " ++ pkg.name)
    else
      match installTree rest (pkg.name :: existing) failOn with
      | .ok names => .ok (pkg.name :: names)
      | .error e => .error e

/-- `LockfileEntry` (lines 673–679). -/
structure LockfileEntry where
  version : String
  resolved : Option String
  integrity : Option String
  dependencies : List (String × String)
  deriving DecidableEq, Repr

/-- `Lockfile` (lines 681–687); `packages` is a `HashMap` in the source,
modelled as a unique-key association list in iteration order. -/
structure Lockfile where
  name : String
  version : String
  lockfileVersion : String
  packages : List (String × LockfileEntry)
  deriving DecidableEq, Repr

/-- `Lockfile::new`. -/
def Lockfile.fresh (name version : String) : Lockfile :=
  ⟨name, version, "1.0.0", []⟩

/-- Hex digit characters, lowercase as `hex::encode` produces. -/
def hexDigit (n : Nat) : Char :=
  if n < 10 then Char.ofNat ('0'.toNat + n) else Char.ofNat ('a'.toNat + (n - 10))

/-- `hex::encode(key.as_bytes())` over the code points of the key; for
the ASCII keys `<name>@<version>` this coincides with the UTF-8 byte
encoding the source hashes over. -/
def hexEncode (s : String) : String :=
  String.mk (s.toList.foldr
    (fun c acc => hexDigit (c.toNat / 16) :: hexDigit (c.toNat % 16) :: acc) [])

/-- `Lockfile::add_package` (lines 701–714): the key is
`<name>@<version>`; `resolved` and `integrity` are always synthesized,
since `Package` carries no distribution block to take a real URL or
digest from. -/
def Lockfile.addPackage (lf : Lockfile) (pkg : Package) (registry : String) : Lockfile :=
  let key := pkg.name ++ "@" ++ pkg.version
  let integrity := some ("sha512-" ++ hexEncode key)
  let resolved := some (registry ++ "/" ++ pkg.name ++ "-" ++ pkg.version ++ ".tgz")
  { lf with packages := insertA lf.packages key ⟨pkg.version, resolved, integrity, pkg.dependencies⟩ }

/-- `generate_lockfile` (lines 456–474): a fresh lockfile named after
the root, populated from the resolved set. -/
def generateLockfile (root : Package) (deps : List (String × Package))
    (registryUrl : String) : Lockfile :=
  deps.foldl (fun lf kp => lf.addPackage kp.2 registryUrl) (Lockfile.fresh root.name root.version)

/-- Observable registry effects of the installers. -/
inductive IEvent where
  | metadataFetch : String → IEvent
  | download : String → IEvent
  deriving DecidableEq, Repr

/-- First `@`-separated component of a lockfile key (`parts[0]` of lines
611–616; `split` never yields an empty list, so the `parts.is_empty()`
branch is dead). -/
def keyName (k : String) : String :=
  match k.splitOn "@" with
  | [] => ""
  | p :: _ => p

/-- `install_from_lockfile` (lines 589–669) with explicit filesystem and
registry effects, entries processed in lockfile iteration order: each
entry synthesizes a `Package`; if its directory is absent the directory
is created and, when the entry carries a `resolved` URL, that tarball is
downloaded.  No registry-metadata request is ever issued.  Returns the
synthesized packages, the directories now present, and the event
trace. -/
def installFromLockfile (entries : List (String × LockfileEntry)) (existing : List String) :
    List Package × List String × List IEvent :=
  match entries with
  | [] => ([], existing, [])
  | (k, e) :: rest =>
    let name := keyName k
    let pkg : Package := ⟨name, e.version, e.dependencies, []⟩
    if existing.contains name then
      let r := installFromLockfile rest existing
      (pkg :: r.1, r.2.1, r.2.2)
    else
      match e.resolved with
      | some url =>
        let r := installFromLockfile rest (name :: existing)
        (pkg :: r.1, r.2.1, .download url :: r.2.2)
      | none =>
        let r := installFromLockfile rest (name :: existing)
        (pkg :: r.1, r.2.1, r.2.2)

/-- The download list the specification prescribes for frozen replay:
the non-null `resolved` URLs of exactly those entries whose package
directory is absent when the entry is processed. -/
def specFrozenDownloads (entries : List (String × LockfileEntry)) (existing : List String) :
    List String :=
  match entries with
  | [] => []
  | (k, e) :: rest =>
    let name := keyName k
    if existing.contains name then specFrozenDownloads rest existing
    else
      match e.resolved with
      | some url => url :: specFrozenDownloads rest (name :: existing)
      | none => specFrozenDownloads rest (name :: existing)

/-- JSON string literal. -/
def quoteJ (s : String) : String := "\"" ++ s ++ "\""

/-- serde_json text of an `Option<String>` field (`None` is `null`). -/
def renderOpt (v : Option String) : String :=
  match v with
  | some s => quoteJ s
  | none => "null"

/-- serde_json text of a dependency map, entries in iteration order. -/
def renderDepsJ (deps : List (String × String)) : String :=
  "\x7b" ++ String.intercalate "," (deps.map (fun kv => quoteJ kv.1 ++ ":" ++ quoteJ kv.2)) ++ "\x7d"

/-- serde_json text of one `packages` binding. -/
def renderEntry (kv : String × LockfileEntry) : String :=
  quoteJ kv.1 ++ ":\x7b" ++
    quoteJ "version" ++ ":" ++ quoteJ kv.2.version ++ "," ++
    quoteJ "resolved" ++ ":" ++ renderOpt kv.2.resolved ++ "," ++
    quoteJ "integrity" ++ ":" ++ renderOpt kv.2.integrity ++ "," ++
    quoteJ "dependencies" ++ ":" ++ renderDepsJ kv.2.dependencies ++ "\x7d"

/-- serde_json text of the `packages` map: bindings appear in the map's
iteration order. -/
def renderPackages (ps : List (String × LockfileEntry)) : String :=
  "\x7b" ++ String.intercalate "," (ps.map renderEntry) ++ "\x7d"

/-- The byte content `save_lockfile` (lines 477–489) writes to
`rjs-lock.json`, abstracting serde_json's pretty-printing whitespace:
struct fields in declaration order, map bindings in iteration order, and
no sorting anywhere on the path. -/
def saveLockfileText (lf : Lockfile) : String :=
  "\x7b" ++ quoteJ "name" ++ ":" ++ quoteJ lf.name ++ "," ++
    quoteJ "version" ++ ":" ++ quoteJ lf.version ++ "," ++
    quoteJ "lockfile_version" ++ ":" ++ quoteJ lf.lockfileVersion ++ "," ++
    quoteJ "packages" ++ ":" ++ renderPackages lf.packages ++ "\x7d"

/-- Download URLs occurring in an installer event trace, in order. -/
def downloadsOf (evs : List IEvent) : List String :=
  evs.filterMap (fun e =>
    match e with
    | .download u => some u
    | .metadataFetch _ => none)

/-- Whether an event trace contains any registry-metadata request. -/
def hasMetadataFetch (evs : List IEvent) : Bool :=
  evs.any (fun e =>
    match e with
    | .metadataFetch _ => true
    | .download _ => false)

/-- The closure invariant of the specification, with the code's own
lenient satisfaction test: every dependency entry of every node is
satisfied by some node of the tree. -/
def closureB (deps : List (String × Package)) : Bool :=
  deps.all (fun kp => kp.2.dependencies.all (fun dr =>
    deps.any (fun mq => mq.2.name == dr.1 && satisfiesLenient dr.2 mq.2.version)))

/-- Propositional form of the closure invariant. -/
def ClosureP (deps : List (String × Package)) : Prop :=
  ∀ kp ∈ deps, ∀ dr ∈ kp.2.dependencies,
    ∃ mq ∈ deps, mq.2.name = dr.1 ∧ satisfiesLenient dr.2 mq.2.version = true

/-- Every binding of `d` traces back to a binding of `d₀` with the same
key, name, and version: the dedup pass only shrinks the tree and
rewrites dependency maps. -/
def RefinesNV (d d₀ : List (String × Package)) : Prop :=
  ∀ kp ∈ d, ∃ p₀, (kp.1, p₀) ∈ d₀ ∧ kp.2.name = p₀.name ∧ kp.2.version = p₀.version

/-- All node versions parse as semver (the spec's descriptor
invariant: a descriptor's exact-version must be valid semver). -/
def versionsParseB (deps : List (String × Package)) : Bool :=
  deps.all (fun kp => (SemVer.parse kp.2.version).isSome)

/-- Registry fixture for the spec's transitive scenario: `a@1.2.0`
depends on `b` under `^2.0.0`; `b@2.3.1` has no dependencies. -/
def infoA : PackageInfo :=
  ⟨"a", [("1.2.0", ⟨"1.2.0", [("b", "^2.0.0")], [], ⟨"", ""⟩⟩)], [("latest", "1.2.0")]⟩

/-- Registry record of `b` for the transitive scenario. -/
def infoB : PackageInfo :=
  ⟨"b", [("2.3.1", ⟨"2.3.1", [], [], ⟨"", ""⟩⟩)], [("latest", "2.3.1")]⟩

/-- The two-package registry of the transitive scenario. -/
def regAB : Registry := [("a", infoA), ("b", infoB)]

/-- Synthetic root requesting `a@^1.0.0`. -/
def rootA : Package := ⟨"root", "0.0.0", [("a", "^1.0.0")], []⟩

/-- Lodash record whose `latest` dist-tag points at the non-maximal
version `4.17.20`. -/
def lodashInfo20 : PackageInfo :=
  ⟨"lodash",
   [("4.17.20", ⟨"4.17.20", [], [], ⟨"", ""⟩⟩), ("4.17.21", ⟨"4.17.21", [], [], ⟨"", ""⟩⟩)],
   [("latest", "4.17.20")]⟩

/-- Registry holding `lodashInfo20`. -/
def lodashReg20 : Registry := [("lodash", lodashInfo20)]

/-- Lodash record of the spec's scenario 1: `latest` points at the
maximal version `4.17.21`. -/
def lodashInfo21 : PackageInfo :=
  ⟨"lodash",
   [("4.17.20", ⟨"4.17.20", [], [], ⟨"", ""⟩⟩), ("4.17.21", ⟨"4.17.21", [], [], ⟨"", ""⟩⟩)],
   [("latest", "4.17.21")]⟩

/-- Registry holding `lodashInfo21`. -/
def lodashReg21 : Registry := [("lodash", lodashInfo21)]

/-- Caller `a` requiring `lib` under `^1.0.0`. -/
def aPkg : Package := ⟨"a", "1.0.0", [("lib", "^1.0.0")], []⟩

/-- Caller `c` requiring `lib` under `^2.0.0`. -/
def cPkg : Package := ⟨"c", "1.0.0", [("lib", "^2.0.0")], []⟩

/-- The lower `lib` version. -/
def libPkg15 : Package := ⟨"lib", "1.5.0", [], []⟩

/-- The higher `lib` version. -/
def libPkg20 : Package := ⟨"lib", "2.0.0", [], []⟩

/-- Dedup fixture with two callers: `a` (range excludes `2.0.0`) and
`c` (range admits `2.0.0`), and both `lib` versions resolved. -/
def demoC4 : List (String × Package) :=
  [("a@^1.0.0", aPkg), ("c@^1.0.0", cPkg), ("lib@^1.0.0", libPkg15), ("lib@^2.0.0", libPkg20)]

/-- Dedup fixture where the only caller's range excludes the preferred
version: no caller admits `2.0.0`. -/
def demoC4r : List (String × Package) :=
  [("a@^1.0.0", aPkg), ("lib@^1.0.0", libPkg15), ("lib@^2.0.0", libPkg20)]

/-- Cyclic registry: `A@1.0.0` depends on `B@^1.0.0` and `B@1.0.0`
depends back on `A@^1.0.0`. -/
def regCyc : Registry :=
  [("A", ⟨"A", [("1.0.0", ⟨"1.0.0", [("B", "^1.0.0")], [], ⟨"", ""⟩⟩)], []⟩),
   ("B", ⟨"B", [("1.0.0", ⟨"1.0.0", [("A", "^1.0.0")], [], ⟨"", ""⟩⟩)], []⟩)]

/-- Synthetic root requesting `A@^1.0.0` against the cyclic registry. -/
def rootCyc : Package := ⟨"root", "0.0.0", [("A", "^1.0.0")], []⟩

/-- The drain's output on the cyclic registry: `A` is resolved for real
and `B` is stored as the synthetic placeholder. -/
def cycPair : List (String × Package) × ResolverState :=
  ([("A@^1.0.0", ⟨"A", "1.0.0", [("B", "^1.0.0")], []⟩), ("B@^1.0.0", dummyPackage "B")],
   ⟨["B@^1.0.0", "A@^1.0.0"],
    [("A@^1.0.0", ⟨"A", "1.0.0", [("B", "^1.0.0")], []⟩)],
    [("A", [(⟨1, 0, 0⟩, "1.0.0", "^1.0.0")])]⟩)

/-- Two-node tree for the installer fixture. -/
def demoC7 : List (String × Package) :=
  [("a@1.0.0", ⟨"a", "1.0.0", [], []⟩), ("b@1.0.0", ⟨"b", "1.0.0", [], []⟩)]

/-- Lockfile entry fixture for package `a`. -/
def entryA8 : LockfileEntry :=
  ⟨"1.0.0", some "https://registry.example/a-1.0.0.tgz", some "sha512-a", []⟩

/-- Lockfile entry fixture for package `b`. -/
def entryB8 : LockfileEntry :=
  ⟨"2.0.0", some "https://registry.example/b-2.0.0.tgz", some "sha512-b", []⟩

/-- A lockfile whose packages map iterates `a` before `b`. -/
def lfAB : Lockfile := ⟨"p", "1.0.0", "1.0.0", [("a@1.0.0", entryA8), ("b@2.0.0", entryB8)]⟩

/-- The same packages map iterated `b` before `a`. -/
def lfBA : Lockfile := ⟨"p", "1.0.0", "1.0.0", [("b@2.0.0", entryB8), ("a@1.0.0", entryA8)]⟩

theorem vLe_iff (a b : SemVer) : vLe a b = true ↔
    (a.major < b.major ∨ (a.major = b.major ∧
      (a.minor < b.minor ∨ (a.minor = b.minor ∧ a.patch ≤ b.patch)))) := by
  simp [vLe]

theorem vLe_refl (a : SemVer) : vLe a a = true := by
  simp [vLe_iff]

theorem vLe_trans {a b c : SemVer} (h1 : vLe a b = true) (h2 : vLe b c = true) :
    vLe a c = true := by
  rw [vLe_iff] at h1 h2 ⊢
  omega

theorem vLe_total (a b : SemVer) : vLe a b = true ∨ vLe b a = true := by
  rw [vLe_iff, vLe_iff]
  omega

theorem caretMatches_self (v : SemVer) : caretMatches v v = true := by
  obtain ⟨ma, mi, pa⟩ := v
  by_cases h1 : ma > 0
  · simp [caretMatches, h1, vLe_refl]
  · by_cases h2 : mi > 0
    · have h0 : ma = 0 := by omega
      simp [caretMatches, h1, h2, h0, vLe_refl]
    · simp [caretMatches, h1, h2]

theorem lookupA_insertA_self {α : Type} (l : List (String × α)) (k : String) (v : α) :
    lookupA (insertA l k v) k = some v := by
  unfold insertA
  split
  · rename_i h
    induction l with
    | nil => simp [lookupA] at h
    | cons p rest ih =>
      by_cases hk : p.1 = k
      · simp only [List.map_cons, if_pos hk]
        simp [lookupA]
      · simp only [List.map_cons, if_neg hk]
        simp only [lookupA, if_neg hk]
        simp only [lookupA, if_neg hk] at h
        exact ih h
  · induction l with
    | nil => simp [lookupA]
    | cons p rest ih =>
      rename_i h
      by_cases hk : p.1 = k
      · simp [lookupA, hk] at h
      · simp only [lookupA, if_neg hk] at h
        simp only [List.cons_append, lookupA, if_neg hk]
        exact ih h

theorem mem_of_lookupA {α : Type} {l : List (String × α)} {k : String} {v : α}
    (h : lookupA l k = some v) : (k, v) ∈ l := by
  induction l with
  | nil => simp [lookupA] at h
  | cons p rest ih =>
    by_cases hk : p.1 = k
    · simp only [lookupA, if_pos hk] at h
      have hp : p = (k, v) := by
        obtain ⟨p1, p2⟩ := p
        injection h with h2
        simp only at hk h2
        simp [hk, h2]
      rw [← hp]
      exact List.mem_cons_self _ _
    · simp only [lookupA, if_neg hk] at h
      exact List.mem_cons_of_mem _ (ih h)

theorem lookupA_isSome_of_mem {α : Type} {l : List (String × α)} {k : String} {v : α}
    (h : (k, v) ∈ l) : (lookupA l k).isSome = true := by
  induction l with
  | nil => simp at h
  | cons p rest ih =>
    by_cases hk : p.1 = k
    · simp [lookupA, hk]
    · rcases List.mem_cons.mp h with h1 | h2
      · rw [← h1] at hk
        simp at hk
      · simp only [lookupA, if_neg hk]
        exact ih h2

theorem nodupKeys_eq {α : Type} {l : List (String × α)}
    (hnd : (l.map Prod.fst).Nodup) {k : String} {a b : α}
    (ha : (k, a) ∈ l) (hb : (k, b) ∈ l) : a = b := by
  induction l with
  | nil => simp at ha
  | cons p rest ih =>
    simp only [List.map_cons, List.nodup_cons] at hnd
    rcases List.mem_cons.mp ha with ha1 | ha2 <;> rcases List.mem_cons.mp hb with hb1 | hb2
    · rw [← ha1] at hb1
      injection hb1 with h1 h2
      exact h2.symm
    · exfalso
      have hk1 : p.1 = k := by rw [← ha1]
      apply hnd.1
      rw [hk1]
      simpa using List.mem_map_of_mem Prod.fst hb2
    · exfalso
      have hk1 : p.1 = k := by rw [← hb1]
      apply hnd.1
      rw [hk1]
      simpa using List.mem_map_of_mem Prod.fst ha2
    · exact ih hnd.2 ha2 hb2

theorem mem_insertA {α : Type} {l : List (String × α)} {k : String} {v : α}
    {x : String × α} (hs : (lookupA l k).isSome = true) (hx : x ∈ insertA l k v) :
    x = (k, v) ∨ (x ∈ l ∧ x.1 ≠ k) := by
  unfold insertA at hx
  rw [if_pos hs] at hx
  obtain ⟨y, hy, heq⟩ := List.mem_map.mp hx
  by_cases hyk : y.1 = k
  · rw [if_pos hyk] at heq
    exact Or.inl heq.symm
  · rw [if_neg hyk] at heq
    rw [← heq]
    exact Or.inr ⟨hy, hyk⟩

theorem parseNumId_not_digit {c : Char} (cs : List Char) (hc : isDigitCh c = false) :
    parseNumId (c :: cs) = none := by
  simp [parseNumId, hc]

theorem splitDots_head_ne_dot {c : Char} (cs : List Char) (hc : ¬c = '.') :
    ∃ g tl, splitDots (c :: cs) = (c :: g) :: tl := by
  simp only [splitDots, if_neg hc]
  cases splitDots cs with
  | nil => exact ⟨[], [], rfl⟩
  | cons g gs => exact ⟨g, gs, rfl⟩

theorem semverParse_head_caret {s : String} {rest : List Char}
    (hl : s.toList = '^' :: rest) : SemVer.parse s = none := by
  unfold SemVer.parse
  rw [hl]
  obtain ⟨g, tl, heq⟩ := splitDots_head_ne_dot (c := '^') rest (by decide)
  rw [heq]
  have hp : parseNumId ('^' :: g) = none := parseNumId_not_digit g (by decide)
  rcases tl with _ | ⟨b, _ | ⟨c, _ | ⟨d, tl'⟩⟩⟩ <;> simp [hp]

theorem lenientReq_matches_self {v : String} {p : SemVer}
    (h : SemVer.parse v = some p) : (lenientReq v).matches (verOf v) = true := by
  have hver : verOf v = p := by simp [verOf, h]
  rw [hver]
  unfold lenientReq Req.parse
  by_cases hstar : v = "*"
  · simp [hstar, Req.matches]
  · rw [if_neg hstar]
    by_cases hcar : v.toList.head? = some '^'
    · exfalso
      cases hl : v.toList with
      | nil =>
        rw [hl] at hcar
        simp at hcar
      | cons c rest =>
        rw [hl] at hcar
        simp only [List.head?_cons, Option.some.injEq] at hcar
        rw [hcar] at hl
        rw [semverParse_head_caret hl] at h
        exact Option.noConfusion h
    · rw [if_neg hcar, h]
      simp [Req.matches, caretMatches_self]

theorem satisfiesLenient_self {v : String} (h : (SemVer.parse v).isSome = true) :
    satisfiesLenient v v = true := by
  obtain ⟨p, hp⟩ := Option.isSome_iff_exists.mp h
  unfold satisfiesLenient
  exact lenientReq_matches_self hp

theorem foldl_maxStep_mem :
    ∀ (l : List (String × SemVer)) (acc : Option (String × SemVer)) (m : String × SemVer),
      l.foldl maxStep acc = some m → acc = some m ∨ m ∈ l := by
  intro l
  induction l with
  | nil => intro acc m h; exact Or.inl h
  | cons c rest ih =>
    intro acc m h
    rw [List.foldl_cons] at h
    rcases ih _ _ h with h1 | h2
    · cases acc with
      | none =>
        simp only [maxStep] at h1
        injection h1 with h1
        exact Or.inr (by rw [← h1]; exact List.mem_cons_self _ _)
      | some a =>
        simp only [maxStep] at h1
        by_cases hle : vLe a.2 c.2 = true
        · rw [if_pos hle] at h1
          injection h1 with h1
          exact Or.inr (by rw [← h1]; exact List.mem_cons_self _ _)
        · rw [if_neg hle] at h1
          exact Or.inl h1
    · exact Or.inr (List.mem_cons_of_mem _ h2)

theorem foldl_maxStep_ge :
    ∀ (l : List (String × SemVer)) (acc : Option (String × SemVer)) (m : String × SemVer),
      l.foldl maxStep acc = some m →
      (∀ x, acc = some x → vLe x.2 m.2 = true) ∧ (∀ c ∈ l, vLe c.2 m.2 = true) := by
  intro l
  induction l with
  | nil =>
    intro acc m h
    refine ⟨fun x hx => ?_, by simp⟩
    rw [hx] at h
    injection h with h
    rw [h]
    exact vLe_refl _
  | cons c rest ih =>
    intro acc m h
    rw [List.foldl_cons] at h
    obtain ⟨h1, h2⟩ := ih _ _ h
    constructor
    · intro x hx
      by_cases hle : vLe x.2 c.2 = true
      · have hcm := h1 c (by rw [hx]; simp [maxStep, hle])
        exact vLe_trans hle hcm
      · exact h1 x (by rw [hx]; simp [maxStep, hle])
    · intro d hd
      rcases List.mem_cons.mp hd with rfl | hd2
      · cases acc with
        | none => exact h1 d (by simp [maxStep])
        | some a =>
          by_cases hle : vLe a.2 d.2 = true
          · exact h1 d (by simp [maxStep, hle])
          · have ha := h1 a (by simp [maxStep, hle])
            rcases vLe_total a.2 d.2 with hh | hh
            · exact absurd hh hle
            · exact vLe_trans hh ha
      · exact h2 d hd2

theorem foldl_maxStep_isSome :
    ∀ (l : List (String × SemVer)) (a : String × SemVer),
      (l.foldl maxStep (some a)).isSome = true := by
  intro l
  induction l with
  | nil => intro a; rfl
  | cons c rest ih =>
    intro a
    rw [List.foldl_cons]
    by_cases hle : vLe a.2 c.2 = true
    · simp only [maxStep, if_pos hle]
      exact ih c
    · simp only [maxStep, if_neg hle]
      exact ih a

theorem maxBySemVer_none {l : List (String × SemVer)} (h : maxBySemVer l = none) :
    l = [] := by
  cases l with
  | nil => rfl
  | cons c rest =>
    exfalso
    unfold maxBySemVer at h
    rw [List.foldl_cons] at h
    have hs : (rest.foldl maxStep (some c)).isSome = true := foldl_maxStep_isSome rest c
    rw [show maxStep none c = some c from rfl] at h
    rw [h] at hs
    simp at hs

theorem candOf_eq_some {r : Req} {a v : String} {p : SemVer} :
    candOf r a = some (v, p) ↔
      a = v ∧ SemVer.parse a = some p ∧ r.matches p = true := by
  unfold candOf
  cases hp : SemVer.parse a with
  | none => simp
  | some q =>
    by_cases hm : r.matches q = true
    · simp only [hm, if_true]
      constructor
      · intro hf
        injection hf with hf
        injection hf with hf1 hf2
        subst hf1
        subst hf2
        exact ⟨rfl, rfl, hm⟩
      · rintro ⟨rfl, h2, h3⟩
        injection h2 with h2
        rw [h2]
    · simp only [hm, if_false, Bool.false_eq_true]
      constructor
      · intro hf
        exact absurd hf (by simp)
      · rintro ⟨rfl, h2, h3⟩
        injection h2 with h2
        rw [h2] at hm
        exact absurd h3 hm

theorem mem_candidateList {r : Req} {keys : List String} {v : String} {p : SemVer} :
    (v, p) ∈ candidateList r keys ↔
      v ∈ keys ∧ SemVer.parse v = some p ∧ r.matches p = true := by
  unfold candidateList
  rw [List.mem_filterMap]
  constructor
  · rintro ⟨a, ha, hf⟩
    obtain ⟨rfl, h2, h3⟩ := candOf_eq_some.mp hf
    exact ⟨ha, h2, h3⟩
  · rintro ⟨h1, h2, h3⟩
    exact ⟨v, h1, candOf_eq_some.mpr ⟨rfl, h2, h3⟩⟩

theorem bestMatching_some {info : PackageInfo} {req v : String}
    (h : bestMatching info req = some v) :
    v ∈ info.versions.map Prod.fst ∧
    ∃ p, SemVer.parse v = some p ∧ ((Req.parse req).getD .star).matches p = true ∧
      ∀ w q, w ∈ info.versions.map Prod.fst → SemVer.parse w = some q →
        ((Req.parse req).getD .star).matches q = true → vLe q p = true := by
  unfold bestMatching at h
  cases hm : maxBySemVer
      (candidateList ((Req.parse req).getD .star) (info.versions.map Prod.fst)) with
  | none =>
    rw [hm] at h
    exact absurd h (by simp)
  | some m =>
    obtain ⟨m1, m2⟩ := m
    rw [hm] at h
    have hv : m1 = v := by simpa using h
    subst hv
    unfold maxBySemVer at hm
    rcases foldl_maxStep_mem _ none _ hm with h0 | hmem
    · exact absurd h0 (by simp)
    · have hge := (foldl_maxStep_ge _ none _ hm).2
      have hc := mem_candidateList.mp hmem
      refine ⟨hc.1, m2, hc.2.1, hc.2.2, ?_⟩
      intro w q hw hq hmq
      have := hge (w, q) (mem_candidateList.mpr ⟨hw, hq, hmq⟩)
      simpa using this

theorem bestMatching_none {info : PackageInfo} {req : String}
    (h : bestMatching info req = none) :
    ∀ w q, w ∈ info.versions.map Prod.fst → SemVer.parse w = some q →
      ((Req.parse req).getD .star).matches q = true → False := by
  intro w q hw hq hmq
  unfold bestMatching at h
  cases hm : maxBySemVer
      (candidateList ((Req.parse req).getD .star) (info.versions.map Prod.fst)) with
  | some m =>
    rw [hm] at h
    simp at h
  | none =>
    have hnil := maxBySemVer_none hm
    have hmem : (w, q) ∈ candidateList ((Req.parse req).getD .star)
        (info.versions.map Prod.fst) := mem_candidateList.mpr ⟨hw, hq, hmq⟩
    rw [hnil] at hmem
    simp at hmem

theorem findCompatibleVersion_nil (name req : String) :
    findCompatibleVersion [] name req = none := by
  unfold findCompatibleVersion
  cases Req.parse req <;> simp [lookupA]

theorem resolvePackage_fresh (reg : Registry) (name req : String) (info : PackageInfo)
    (hreg : lookupA reg name = some info) :
    resolvePackage reg initState name req =
      match bestMatching info req with
      | none => (.error (.noMatchingVersion name req),
          ⟨[name ++ "@" ++ req], [], []⟩, [name])
      | some v =>
        (.ok (mkResolved name v info),
         ⟨[name ++ "@" ++ req],
          [(name ++ "@" ++ req, mkResolved name v info)],
          registerPackage [] name v req⟩, [name]) := by
  unfold resolvePackage
  simp only [initState]
  simp only [lookupA, List.contains, List.elem, findCompatibleVersion_nil, hreg]
  cases bestMatching info req <;> rfl

/-- C2: for a request whose range-spec parses as a semver range, a fresh
`resolve_package` run against a registry record selects the
semver-maximum matching version among the record's version keys, and
when no key matches it fails with a no-matching-version error naming the
package and the range. -/
theorem c2_resolve_package_semver_max (reg : Registry) (name req : String)
    (info : PackageInfo) (R : Req) (hreq : Req.parse req = some R)
    (hreg : lookupA reg name = some info) :
    (∀ pkg rest, resolvePackage reg initState name req = (.ok pkg, rest) →
      pkg.name = name ∧ pkg.version ∈ info.versions.map Prod.fst ∧
      (∃ p, SemVer.parse pkg.version = some p ∧ R.matches p = true ∧
        ∀ w q, w ∈ info.versions.map Prod.fst → SemVer.parse w = some q →
          R.matches q = true → vLe q p = true)) ∧
    (∀ e rest, resolvePackage reg initState name req = (.error e, rest) →
      e = .noMatchingVersion name req ∧
      ∀ w q, w ∈ info.versions.map Prod.fst → SemVer.parse w = some q →
        R.matches q = true → False) := by
  have hgetD : (Req.parse req).getD Req.star = R := by rw [hreq]; rfl
  have hred := resolvePackage_fresh reg name req info hreg
  constructor
  · intro pkg rest heq
    cases hbm : bestMatching info req with
    | none =>
      simp only [hbm] at hred
      rw [hred] at heq
      have h1 := congrArg Prod.fst heq
      simp at h1
    | some v =>
      simp only [hbm] at hred
      rw [hred] at heq
      have h1 := congrArg Prod.fst heq
      simp only [Except.ok.injEq] at h1
      have hpkg : mkResolved name v info = pkg := h1
      obtain ⟨hmem, p, hp, hmat, hmax⟩ := bestMatching_some hbm
      rw [hgetD] at hmat hmax
      refine ⟨by rw [← hpkg]; rfl, ?_, p, ?_, hmat, ?_⟩
      · rw [← hpkg]
        exact hmem
      · rw [← hpkg]
        exact hp
      · intro w q hw hq hmq
        exact hmax w q hw hq hmq
  · intro e rest heq
    cases hbm : bestMatching info req with
    | some v =>
      simp only [hbm] at hred
      rw [hred] at heq
      have h1 := congrArg Prod.fst heq
      simp at h1
    | none =>
      simp only [hbm] at hred
      rw [hred] at heq
      have h1 := congrArg Prod.fst heq
      simp only [Except.error.injEq] at h1
      refine ⟨h1.symm, ?_⟩
      intro w q hw hq hmq
      have hb := bestMatching_none hbm w q hw hq
      rw [hgetD] at hb
      exact hb hmq

/-- C2 witness: the theorem instantiated on the fixture registry at
`a@^1.0.0`, where version `1.2.0` is chosen. -/
theorem c2_witness :
    Package.name ⟨"a", "1.2.0", [("b", "^2.0.0")], []⟩ = "a" ∧
    ("1.2.0" : String) ∈ infoA.versions.map Prod.fst := by
  have h := (c2_resolve_package_semver_max regAB "a" "^1.0.0" infoA
      (.caret ⟨1, 0, 0⟩) rfl rfl).1
      ⟨"a", "1.2.0", [("b", "^2.0.0")], []⟩
      (⟨["a@^1.0.0"],
        [("a@^1.0.0", ⟨"a", "1.2.0", [("b", "^2.0.0")], []⟩)],
        [("a", [(⟨1, 2, 0⟩, "1.2.0", "^1.0.0")])]⟩, ["a"])
      rfl
  exact ⟨h.1, h.2.1⟩

/-- C3 counterexample: against a record whose `latest` dist-tag names
`4.17.20`, `resolve_package` still returns `4.17.21` — the dist-tags map
is never consulted, so the chosen version is not the tag-mapped one. -/
theorem c3_counterexample :
    (resolvePackage lodashReg20 initState "lodash" "latest").1 =
      .ok ⟨"lodash", "4.17.21", [], []⟩ ∧
    lookupA lodashInfo20.distTags "latest" = some "4.17.20" ∧
    ("4.17.21" : String) ≠ "4.17.20" := by
  refine ⟨rfl, rfl, by decide⟩

/-- C3 (amended): a request whose range-spec fails semver parsing — in
particular any dist-tag such as `"latest"` — is resolved with the
universal range `VersionReq::STAR`: dist-tags are never consulted, and
the chosen version is the semver-maximum among all parseable version
keys.  On the spec's lodash record this picks `4.17.21`, coinciding with
the tag because the tag happens to name the maximum. -/
theorem c3_amended_star_fallback (reg : Registry) (name req : String)
    (info : PackageInfo) (hreq : Req.parse req = none)
    (hreg : lookupA reg name = some info) :
    (∀ pkg rest, resolvePackage reg initState name req = (.ok pkg, rest) →
      pkg.name = name ∧ pkg.version ∈ info.versions.map Prod.fst ∧
      (∃ p, SemVer.parse pkg.version = some p ∧
        ∀ w q, w ∈ info.versions.map Prod.fst → SemVer.parse w = some q →
          vLe q p = true)) ∧
    (∀ e rest, resolvePackage reg initState name req = (.error e, rest) →
      e = .noMatchingVersion name req ∧
      ∀ w q, w ∈ info.versions.map Prod.fst → SemVer.parse w = some q → False) := by
  have hgetD : (Req.parse req).getD Req.star = Req.star := by rw [hreq]; rfl
  have hred := resolvePackage_fresh reg name req info hreg
  constructor
  · intro pkg rest heq
    cases hbm : bestMatching info req with
    | none =>
      simp only [hbm] at hred
      rw [hred] at heq
      have h1 := congrArg Prod.fst heq
      simp at h1
    | some v =>
      simp only [hbm] at hred
      rw [hred] at heq
      have h1 := congrArg Prod.fst heq
      simp only [Except.ok.injEq] at h1
      obtain ⟨hmem, p, hp, _hmat, hmax⟩ := bestMatching_some hbm
      rw [hgetD] at hmax
      refine ⟨by rw [← h1]; rfl, by rw [← h1]; exact hmem, p, by rw [← h1]; exact hp, ?_⟩
      intro w q hw hq
      exact hmax w q hw hq rfl
  · intro e rest heq
    cases hbm : bestMatching info req with
    | some v =>
      simp only [hbm] at hred
      rw [hred] at heq
      have h1 := congrArg Prod.fst heq
      simp at h1
    | none =>
      simp only [hbm] at hred
      rw [hred] at heq
      have h1 := congrArg Prod.fst heq
      simp only [Except.error.injEq] at h1
      refine ⟨h1.symm, ?_⟩
      intro w q hw hq
      have hb := bestMatching_none hbm w q hw hq
      rw [hgetD] at hb
      exact hb rfl

/-- C3 witness: the amended theorem applied to lodash@latest with the
tag at the maximum — the chosen version `4.17.21` coincides with the
tag-mapped one. -/
theorem c3_witness :
    Package.version ⟨"lodash", "4.17.21", [], []⟩ = "4.17.21" ∧
    ("4.17.21" : String) ∈ lodashInfo21.versions.map Prod.fst ∧
    lookupA lodashInfo21.distTags "latest" = some "4.17.21" := by
  have h := (c3_amended_star_fallback lodashReg21 "lodash" "latest" lodashInfo21 rfl rfl).1
      ⟨"lodash", "4.17.21", [], []⟩
      (⟨["lodash@latest"],
        [("lodash@latest", ⟨"lodash", "4.17.21", [], []⟩)],
        [("lodash", [(⟨4, 17, 21⟩, "4.17.21", "latest")])]⟩, ["lodash"])
      rfl
  exact ⟨rfl, h.2.1, rfl⟩

/-- C1: the full resolve on the spec's transitive scenario.  The
transitive request `b@^2.0.0` is marked visited when enqueued
(lines 380–384), so its later `resolve_package` call short-circuits to
the synthetic placeholder: the resolved set stores `b@0.0.0` even
though the registry has `b@2.3.1`. -/
theorem c1_transitive_placeholder :
    resolveDependencies regAB rootA 6 =
      some [("a@^1.0.0", ⟨"a", "1.2.0", [("b", "^2.0.0")], []⟩),
            ("b@^2.0.0", dummyPackage "b")] ∧
    ((resolveDependencies regAB rootA 6).getD []).all
      (fun kp => !(kp.2.version == "2.3.1")) = true ∧
    lookupA infoB.versions "2.3.1" ≠ none := by
  refine ⟨rfl, by decide, by decide⟩

theorem drainQueue_succ (reg : Registry) :
    ∀ (f : Nat) (st : ResolverState) (q : List (String × String))
      (acc : List (String × Package)) (r : List (String × Package) × ResolverState),
      drainQueue reg f st q acc = some r → drainQueue reg (f + 1) st q acc = some r := by
  intro f
  induction f with
  | zero =>
    intro st q acc r h
    cases q with
    | nil => exact h
    | cons c rest => exact absurd h (by simp [drainQueue])
  | succ n ih =>
    intro st q acc r h
    cases q with
    | nil => exact h
    | cons c rest =>
      obtain ⟨name, req⟩ := c
      rw [drainQueue] at h ⊢
      rcases hr : resolvePackage reg st name req with ⟨res, st1, ev⟩
      cases res with
      | ok pkg =>
        simp only [hr] at h ⊢
        exact ih _ _ _ _ h
      | error e =>
        simp only [hr] at h ⊢
        exact ih _ _ _ _ h

/-- C9: on the cyclic registry the drain terminates — fuel 10 plus any
extra yields the same drained result — but the resolved set stores the
placeholder `B@0.0.0` for the cyclic request, not `B@1.0.0`. -/
theorem c9_cycle_terminates_placeholder :
    (∀ extra : Nat, drainQueue regCyc (10 + extra) initState rootCyc.dependencies [] =
      some cycPair) ∧
    lookupA cycPair.1 "B@^1.0.0" = some (dummyPackage "B") ∧
    (dummyPackage "B").version ≠ "1.0.0" := by
  refine ⟨?_, rfl, by decide⟩
  intro extra
  induction extra with
  | zero => rfl
  | succ n ih => exact drainQueue_succ regCyc (10 + n) _ _ _ _ ih

/-- C10: a request whose key is already visited but absent from the
metadata cache returns the synthetic package — the requested name,
version `0.0.0`, empty dependency maps — without touching the state or
the registry; and the drain stores exactly such a package in the
resolved tree for the fixture's transitive request `b@^2.0.0`. -/
theorem c10_visited_returns_dummy (reg : Registry) (st : ResolverState) (name req : String)
    (hc : lookupA st.cache (name ++ "@" ++ req) = none)
    (hv : st.visited.contains (name ++ "@" ++ req) = true) :
    resolvePackage reg st name req = (.ok (dummyPackage name), st, []) ∧
    lookupA ((resolveDependenciesInternal regAB rootA 6).getD []) "b@^2.0.0" =
      some (dummyPackage "b") := by
  refine ⟨?_, rfl⟩
  unfold resolvePackage
  simp only [hc, hv, if_true]

/-- C10 witness: the theorem applied at a concrete visited,
cache-missing state. -/
theorem c10_witness :
    resolvePackage [] ⟨["x@^1.0.0"], [], []⟩ "x" "^1.0.0" =
      (.ok (dummyPackage "x"), ⟨["x@^1.0.0"], [], []⟩, []) ∧
    lookupA ((resolveDependenciesInternal regAB rootA 6).getD []) "b@^2.0.0" =
      some (dummyPackage "b") :=
  c10_visited_returns_dummy [] ⟨["x@^1.0.0"], [], []⟩ "x" "^1.0.0" rfl rfl

/-- C5: frozen replay issues no registry-metadata request, and its
downloads are exactly the non-null `resolved` URLs of the lockfile's
entries whose package directory is absent when the entry is
processed. -/
theorem c5_frozen_replay (entries : List (String × LockfileEntry))
    (existing : List String) :
    hasMetadataFetch (installFromLockfile entries existing).2.2 = false ∧
    downloadsOf (installFromLockfile entries existing).2.2 =
      specFrozenDownloads entries existing := by
  induction entries generalizing existing with
  | nil => exact ⟨rfl, rfl⟩
  | cons e rest ih =>
    obtain ⟨k, entry⟩ := e
    simp only [installFromLockfile, specFrozenDownloads]
    by_cases hex : existing.contains (keyName k) = true
    · simp only [hex, if_true]
      exact ih existing
    · simp only [hex, if_false, Bool.false_eq_true]
      cases hr : entry.resolved with
      | none =>
        simp only []
        exact ih (keyName k :: existing)
      | some url =>
        simp only []
        obtain ⟨ih1, ih2⟩ := ih (keyName k :: existing)
        refine ⟨?_, ?_⟩
        · simpa [hasMetadataFetch] using ih1
        · simpa [downloadsOf] using ih2

/-- C6: every lockfile entry written by `add_package` is fully
synthesized: `resolved` is `<registry>/<name>-<version>.tgz`,
`integrity` is the `sha512-`-prefixed hex encoding of the
`<name>@<version>` key, and `dependencies` is the node's map verbatim.
(`Package` carries no distribution block, so the spec's "descriptor's
own URL / digest when present" case is vacuous: there is never one to
take.) -/
theorem c6_lockfile_entry_synthesized (lf : Lockfile) (pkg : Package) (registry : String) :
    lookupA (lf.addPackage pkg registry).packages (pkg.name ++ "@" ++ pkg.version) =
      some ⟨pkg.version,
        some (registry ++ "/" ++ pkg.name ++ "-" ++ pkg.version ++ ".tgz"),
        some ("sha512-" ++ hexEncode (pkg.name ++ "@" ++ pkg.version)),
        pkg.dependencies⟩ := by
  unfold Lockfile.addPackage
  exact lookupA_insertA_self _ _ _

/-- C7 counterexample: with a filesystem that fails the first node's
directory creation, `install_tree` aborts with that error — it does not
continue with node `b` and returns no list of successful names. -/
theorem c7_counterexample :
    installTree demoC7 [] ["a"] = .error "failed to create a" ∧
    ("b" : String) ∈ demoC7.map (fun kp => kp.2.name) := by
  exact ⟨rfl, by decide⟩

/-- C7 (amended): `install_tree` is not partial-success: the first
filesystem failure aborts the whole call with that error (later nodes
are not materialized and no success list is returned), and only a
fully successful run returns the names of all nodes in iteration
order. -/
theorem c7_amended_abort_on_error :
    (∀ (deps : List (String × Package)) (existing : List String),
      installTree deps existing [] = .ok (deps.map (fun kp => kp.2.name))) ∧
    (∀ (k : String) (p : Package) (post : List (String × Package))
      (existing failOn : List String),
      p.name ∈ failOn → existing.contains p.name = false →
      installTree ((k, p) :: post) existing failOn =
        .error ("failed to create " ++ p.name)) := by
  constructor
  · intro deps
    induction deps with
    | nil => intro ex; rfl
    | cons e rest ih =>
      intro ex
      obtain ⟨k, p⟩ := e
      unfold installTree
      by_cases hex : ex.contains p.name = true
      · simp only [hex, if_true, ih ex]
        rfl
      · simp only [hex, if_false, Bool.false_eq_true]
        have hf : ([] : List String).contains p.name = false := rfl
        simp only [hf, if_false, Bool.false_eq_true, ih (p.name :: ex)]
        rfl
  · intro k p post ex failOn hf hex
    unfold installTree
    have hcf : failOn.contains p.name = true := by
      simpa using hf
    simp only [hex, hcf, if_true, if_false, Bool.false_eq_true]

/-- C7 witness: the amended theorem at concrete inputs — a clean run
returns all names, a failing first node aborts. -/
theorem c7_witness :
    installTree demoC7 [] [] = .ok (demoC7.map (fun kp => kp.2.name)) ∧
    installTree [("b@1.0.0", ⟨"b", "1.0.0", [], []⟩)] [] ["b"] =
      .error ("failed to create " ++ ("b" : String)) := by
  exact ⟨c7_amended_abort_on_error.1 demoC7 [],
    c7_amended_abort_on_error.2 "b@1.0.0" ⟨"b", "1.0.0", [], []⟩ [] [] ["b"]
      (by decide) rfl⟩

/-- C8: the lockfile serialization is order-sensitive and
`save_lockfile` sorts nothing: the same packages map rendered in two
iteration orders yields different bytes, so two equivalent resolves are
not guaranteed byte-identical lockfiles. -/
theorem c8_render_order_sensitive :
    List.Perm lfAB.packages lfBA.packages ∧
    saveLockfileText lfAB ≠ saveLockfileText lfBA := by
  constructor
  · decide
  · decide

/-- C4 counterexample: in the two-caller fixture the pass removes
`lib@1.5.0` although caller `a` requires `lib` under `^1.0.0`, which the
preferred version `2.0.0` does not satisfy — the node is removed (and
`a`'s entry rewritten to `2.0.0`) because the other caller `c` admits
`2.0.0`.  This refutes "a node whose caller's range excludes the
preferred version is retained". -/
theorem c4_counterexample :
    deduplicateTree demoC4 =
      [("a@^1.0.0", ⟨"a", "1.0.0", [("lib", "2.0.0")], []⟩),
       ("c@^1.0.0", ⟨"c", "1.0.0", [("lib", "2.0.0")], []⟩),
       ("lib@^2.0.0", libPkg20)] ∧
    lookupA demoC4 "lib@^1.0.0" = some libPkg15 ∧
    lookupA aPkg.dependencies "lib" = some "^1.0.0" ∧
    satisfiesLenient "^1.0.0" "2.0.0" = false := by
  refine ⟨rfl, rfl, rfl, by decide⟩

theorem rwOne_fst (n v : String) (kp : String × Package) : (rwOne n v kp).1 = kp.1 := by
  unfold rwOne
  split <;> rfl

theorem rwOne_name (n v : String) (kp : String × Package) :
    (rwOne n v kp).2.name = kp.2.name := by
  unfold rwOne
  split <;> rfl

theorem rwOne_version (n v : String) (kp : String × Package) :
    (rwOne n v kp).2.version = kp.2.version := by
  unfold rwOne
  split <;> rfl

theorem rwOne_dep_mem {n v : String} {kp : String × Package} {dr : String × String}
    (h : dr ∈ (rwOne n v kp).2.dependencies) :
    (dr.1 = n ∧ dr.2 = v) ∨ (dr ∈ kp.2.dependencies ∧ dr.1 ≠ n) := by
  unfold rwOne at h
  by_cases hs : (lookupA kp.2.dependencies n).isSome = true
  · rw [if_pos hs] at h
    rcases mem_insertA hs h with h1 | h2
    · left
      rw [h1]
      exact ⟨rfl, rfl⟩
    · right
      exact h2
  · rw [if_neg hs] at h
    right
    refine ⟨h, ?_⟩
    intro hdn
    apply hs
    apply lookupA_isSome_of_mem (v := dr.2)
    rw [← hdn]
    exact h

theorem step_refines (pref : Package) (d : List (String × Package)) (lk : String) :
    ∀ x ∈ dedupStep pref d lk, ∃ y ∈ d, x.1 = y.1 ∧ x.2.name = y.2.name ∧
      x.2.version = y.2.version := by
  intro x hx
  simp only [dedupStep] at hx
  split at hx
  · simp only [rewriteDeps] at hx
    obtain ⟨y, hy, hxy⟩ := List.mem_map.mp hx
    have hy2 : y ∈ d := (List.mem_filter.mp hy).1
    refine ⟨y, hy2, ?_, ?_, ?_⟩
    · rw [← hxy]
      exact rwOne_fst _ _ _
    · rw [← hxy]
      exact rwOne_name _ _ _
    · rw [← hxy]
      exact rwOne_version _ _ _
  · exact ⟨x, hx, rfl, rfl, rfl⟩

theorem step_keeps (pref : Package) (d : List (String × Package)) (lk : String) :
    ∀ y ∈ d, y.1 ≠ lk → ∃ x ∈ dedupStep pref d lk, x.1 = y.1 ∧
      x.2.name = y.2.name ∧ x.2.version = y.2.version := by
  intro y hy hne
  simp only [dedupStep]
  split
  · refine ⟨rwOne pref.name pref.version y, ?_,
      rwOne_fst _ _ _, rwOne_name _ _ _, rwOne_version _ _ _⟩
    apply List.mem_map_of_mem
    apply List.mem_filter.mpr
    exact ⟨hy, by simp [hne]⟩
  · exact ⟨y, hy, rfl, rfl, rfl⟩

theorem step_closure {pref : Package} {d : List (String × Package)} {lk : String}
    (hpp : ∃ pk pp, (pk, pp) ∈ d ∧ pp.name = pref.name ∧
      pp.version = pref.version ∧ pk ≠ lk)
    (hparse : (SemVer.parse pref.version).isSome = true)
    (hlk : ∀ p, (lk, p) ∈ d → p.name = pref.name)
    (hc : ClosureP d) : ClosureP (dedupStep pref d lk) := by
  simp only [dedupStep]
  split
  · intro kp' hkp' dr' hdr'
    simp only [rewriteDeps] at hkp'
    obtain ⟨kp, hkpf, hkpeq⟩ := List.mem_map.mp hkp'
    have hkpd : kp ∈ d := (List.mem_filter.mp hkpf).1
    rw [← hkpeq] at hdr'
    rcases rwOne_dep_mem hdr' with ⟨hdn, hdv⟩ | ⟨hmem, hdne⟩
    · obtain ⟨pk, pp, hppd, hppn, hppv, hpkne⟩ := hpp
      refine ⟨rwOne pref.name pref.version (pk, pp), ?_, ?_, ?_⟩
      · apply List.mem_map_of_mem
        apply List.mem_filter.mpr
        exact ⟨hppd, by simp [hpkne]⟩
      · rw [rwOne_name, hdn]
        exact hppn
      · rw [rwOne_version, hdv]
        have hsv : satisfiesLenient pref.version pref.version = true :=
          satisfiesLenient_self hparse
        rw [show ((pk, pp) : String × Package).2.version = pp.version from rfl, hppv]
        exact hsv
    · obtain ⟨mq, hmqd, hmqn, hmqs⟩ := hc kp hkpd dr' hmem
      have hmqne : mq.1 ≠ lk := by
        intro he
        apply hdne
        have hin : (lk, mq.2) ∈ d := by
          rw [← he]
          exact hmqd
        rw [← hmqn]
        exact hlk mq.2 hin
      refine ⟨rwOne pref.name pref.version mq, ?_, ?_, ?_⟩
      · apply List.mem_map_of_mem
        exact List.mem_filter.mpr ⟨hmqd, by simp [hmqne]⟩
      · rw [rwOne_name]
        exact hmqn
      · rw [rwOne_version]
        exact hmqs
  · exact hc

theorem foldSteps_spec (pref : Package) (pk : String)
    (hparse : (SemVer.parse pref.version).isSome = true) :
    ∀ (ls : List (String × Package)) (d : List (String × Package)),
    (∃ pp, (pk, pp) ∈ d ∧ pp.name = pref.name ∧ pp.version = pref.version) →
    pk ∉ ls.map Prod.fst →
    (∀ kp ∈ ls, ∀ p, (kp.1, p) ∈ d → p.name = pref.name) →
    ClosureP d →
    ClosureP (ls.foldl (fun acc kp => dedupStep pref acc kp.1) d) ∧
    RefinesNV (ls.foldl (fun acc kp => dedupStep pref acc kp.1) d) d ∧
    (∀ y ∈ d, y.1 ∉ ls.map Prod.fst →
      ∃ x ∈ ls.foldl (fun acc kp => dedupStep pref acc kp.1) d,
        x.1 = y.1 ∧ x.2.name = y.2.name ∧ x.2.version = y.2.version) := by
  intro ls
  induction ls with
  | nil =>
    intro d hpp hpk hnames hc
    refine ⟨hc, ?_, ?_⟩
    · intro kp hkp
      exact ⟨kp.2, hkp, rfl, rfl⟩
    · intro y hy _
      exact ⟨y, hy, rfl, rfl, rfl⟩
  | cons l ls' ih =>
    intro d hpp hpk hnames hc
    rw [List.foldl_cons]
    have hpkne : pk ≠ l.1 := by
      intro he
      apply hpk
      rw [he, List.map_cons]
      exact List.mem_cons_self _ _
    obtain ⟨pp, hppd, hppn, hppv⟩ := hpp
    have hstep_pp : ∃ pp', (pk, pp') ∈ dedupStep pref d l.1 ∧
        pp'.name = pref.name ∧ pp'.version = pref.version := by
      obtain ⟨x, hx, hx1, hxn, hxv⟩ := step_keeps pref d l.1 (pk, pp) hppd hpkne
      have hx1' : x.1 = pk := hx1
      have hxn' : x.2.name = pp.name := hxn
      have hxv' : x.2.version = pp.version := hxv
      refine ⟨x.2, ?_, ?_, ?_⟩
      · rw [← hx1']
        exact hx
      · rw [hxn']
        exact hppn
      · rw [hxv']
        exact hppv
    have hlk : ∀ p, (l.1, p) ∈ d → p.name = pref.name :=
      fun p hp => hnames l (List.mem_cons_self _ _) p hp
    have hc' : ClosureP (dedupStep pref d l.1) :=
      step_closure ⟨pk, pp, hppd, hppn, hppv, hpkne⟩ hparse hlk hc
    have hnames' : ∀ kp ∈ ls', ∀ p, (kp.1, p) ∈ dedupStep pref d l.1 →
        p.name = pref.name := by
      intro kp hkp p hp
      obtain ⟨y, hy, hy1, hyn, _⟩ := step_refines pref d l.1 (kp.1, p) hp
      have hin : (kp.1, y.2) ∈ d := by
        rw [hy1]
        exact hy
      have hny := hnames kp (List.mem_cons_of_mem _ hkp) y.2 hin
      rw [show ((kp.1, p) : String × Package).2.name = p.name from rfl] at hyn
      rw [hyn]
      exact hny
    have hpk' : pk ∉ ls'.map Prod.fst := by
      intro hmem
      apply hpk
      rw [List.map_cons]
      exact List.mem_cons_of_mem _ hmem
    obtain ⟨hcr, hrefr, hkeepr⟩ := ih (dedupStep pref d l.1) hstep_pp hpk' hnames' hc'
    refine ⟨hcr, ?_, ?_⟩
    · intro kp hkp
      obtain ⟨p₀, hp₀, hn, hv⟩ := hrefr kp hkp
      obtain ⟨y, hy, hy1, hyn, hyv⟩ := step_refines pref d l.1 (kp.1, p₀) hp₀
      refine ⟨y.2, ?_, ?_, ?_⟩
      · rw [show ((kp.1, p₀) : String × Package).1 = kp.1 from rfl] at hy1
        rw [hy1]
        exact hy
      · rw [hn, ← hyn]
      · rw [hv, ← hyv]
    · intro y hy hyn
      have hyne : y.1 ≠ l.1 := by
        intro he
        apply hyn
        rw [he, List.map_cons]
        exact List.mem_cons_self _ _
      obtain ⟨x, hx, hx1, hxn, hxv⟩ := step_keeps pref d l.1 y hy hyne
      have hxn2 : x.1 ∉ ls'.map Prod.fst := by
        rw [hx1]
        intro hm
        apply hyn
        rw [List.map_cons]
        exact List.mem_cons_of_mem _ hm
      obtain ⟨z, hz, hz1, hzn, hzv⟩ := hkeepr x hx hxn2
      exact ⟨z, hz, by rw [hz1, hx1], by rw [hzn, hxn], by rw [hzv, hxv]⟩

theorem processGroup_spec (d group : List (String × Package)) (n : String)
    (hgname : ∀ kp ∈ group, kp.2.name = n)
    (hgkeys : (group.map Prod.fst).Nodup)
    (hentries : ∀ kp ∈ group, ∀ p, (kp.1, p) ∈ d → p.name = n)
    (hpresent : ∀ kp ∈ group, ∃ p, (kp.1, p) ∈ d ∧ p.name = kp.2.name ∧
      p.version = kp.2.version)
    (hvers : ∀ kp ∈ group, (SemVer.parse kp.2.version).isSome = true)
    (hc : ClosureP d) :
    ClosureP (processGroup d group) ∧ RefinesNV (processGroup d group) d ∧
    (∀ y ∈ d, y.1 ∉ group.map Prod.fst →
      ∃ x ∈ processGroup d group, x.1 = y.1 ∧ x.2.name = y.2.name ∧
        x.2.version = y.2.version) := by
  unfold processGroup
  by_cases hlen : group.length ≤ 1
  · rw [if_pos hlen]
    refine ⟨hc, fun kp hkp => ⟨kp.2, hkp, rfl, rfl⟩, fun y hy _ => ⟨y, hy, rfl, rfl, rfl⟩⟩
  · rw [if_neg hlen]
    cases hsort : sortGroupDesc group with
    | nil =>
      refine ⟨hc, fun kp hkp => ⟨kp.2, hkp, rfl, rfl⟩, fun y hy _ => ⟨y, hy, rfl, rfl, rfl⟩⟩
    | cons pref rest =>
      have hperm : List.Perm (sortGroupDesc group) group :=
        List.perm_insertionSort _ _
      rw [hsort] at hperm
      have hprefg : pref ∈ group := hperm.subset (List.mem_cons_self _ _)
      have hrestg : ∀ kp ∈ rest, kp ∈ group :=
        fun kp h => hperm.subset (List.mem_cons_of_mem _ h)
      have hkeysperm : List.Perm ((pref :: rest).map Prod.fst) (group.map Prod.fst) :=
        hperm.map _
      have hnodup : ((pref :: rest).map Prod.fst).Nodup :=
        (hkeysperm.nodup_iff).mpr hgkeys
      rw [List.map_cons] at hnodup
      have hpk : pref.1 ∉ rest.map Prod.fst := (List.nodup_cons.mp hnodup).1
      obtain ⟨pp, hppd, hppn, hppv⟩ := hpresent pref hprefg
      have hnames : ∀ kp ∈ rest, ∀ p, (kp.1, p) ∈ d → p.name = pref.2.name := by
        intro kp hkp p hp
        have hn := hentries kp (hrestg kp hkp) p hp
        rw [hgname pref hprefg]
        exact hn
      obtain ⟨h1, h2, h3⟩ := foldSteps_spec pref.2 pref.1 (hvers pref hprefg) rest d
        ⟨pp, hppd, hppn, hppv⟩ hpk hnames hc
      refine ⟨h1, h2, ?_⟩
      intro y hy hyn
      apply h3 y hy
      intro hmem
      apply hyn
      apply hkeysperm.subset
      rw [List.map_cons]
      exact List.mem_cons_of_mem _ hmem

theorem dedupFirst_nodup : ∀ (l : List String), (dedupFirst l).Nodup := by
  intro l
  induction l with
  | nil => simp [dedupFirst]
  | cons x rest ih =>
    simp only [dedupFirst]
    rw [List.nodup_cons]
    constructor
    · intro hx
      have hf := (List.mem_filter.mp hx).2
      simp at hf
    · exact List.Nodup.filter _ ih

theorem foldGroups_spec (d₀ : List (String × Package))
    (hnd : (d₀.map Prod.fst).Nodup)
    (hv : ∀ kp ∈ d₀, (SemVer.parse kp.2.version).isSome = true) :
    ∀ (ns : List String), ns.Nodup → ∀ (d : List (String × Package)),
    ClosureP d → RefinesNV d d₀ →
    (∀ k p₀, (k, p₀) ∈ d₀ → p₀.name ∈ ns →
      ∃ p, (k, p) ∈ d ∧ p.name = p₀.name ∧ p.version = p₀.version) →
    ClosureP (ns.foldl (fun acc m => processGroup acc (groupOf d₀ m)) d) := by
  intro ns
  induction ns with
  | nil =>
    intro _ d hc _ _
    exact hc
  | cons n ns' ih =>
    intro hnsnd d hc href hpers
    rw [List.foldl_cons]
    have hgname : ∀ kp ∈ groupOf d₀ n, kp.2.name = n := by
      intro kp hkp
      have := (List.mem_filter.mp hkp).2
      simpa using this
    have hgsub : ∀ kp ∈ groupOf d₀ n, kp ∈ d₀ :=
      fun kp hkp => (List.mem_filter.mp hkp).1
    have hgkeys : ((groupOf d₀ n).map Prod.fst).Nodup := by
      apply List.Nodup.sublist _ hnd
      exact List.Sublist.map _ (List.filter_sublist _)
    have hentries : ∀ kp ∈ groupOf d₀ n, ∀ p, (kp.1, p) ∈ d → p.name = n := by
      intro kp hkp p hp
      obtain ⟨p₀, hp₀, hpn, _⟩ := href (kp.1, p) hp
      have hkpd : (kp.1, kp.2) ∈ d₀ := hgsub kp hkp
      have hpe : p₀ = kp.2 := nodupKeys_eq hnd hp₀ hkpd
      rw [show ((kp.1, p) : String × Package).2.name = p.name from rfl] at hpn
      rw [hpn, hpe]
      exact hgname kp hkp
    have hpresent : ∀ kp ∈ groupOf d₀ n, ∃ p, (kp.1, p) ∈ d ∧
        p.name = kp.2.name ∧ p.version = kp.2.version := by
      intro kp hkp
      exact hpers kp.1 kp.2 (hgsub kp hkp)
        (by rw [hgname kp hkp]; exact List.mem_cons_self _ _)
    have hvg : ∀ kp ∈ groupOf d₀ n, (SemVer.parse kp.2.version).isSome = true :=
      fun kp hkp => hv kp (hgsub kp hkp)
    obtain ⟨hc', href', hkeep'⟩ :=
      processGroup_spec d (groupOf d₀ n) n hgname hgkeys hentries hpresent hvg hc
    apply ih (List.nodup_cons.mp hnsnd).2 _ hc'
    · intro kp hkp
      obtain ⟨p₀, hp₀, hn, hvv⟩ := href' kp hkp
      obtain ⟨p₁, hp₁, hn1, hv1⟩ := href (kp.1, p₀) hp₀
      refine ⟨p₁, hp₁, ?_, ?_⟩
      · rw [hn, ← hn1]
      · rw [hvv, ← hv1]
    · intro k p₀ hkd hns
      obtain ⟨p, hpd, hpn, hpv⟩ := hpers k p₀ hkd (List.mem_cons_of_mem _ hns)
      have hknotg : k ∉ (groupOf d₀ n).map Prod.fst := by
        intro hkg
        obtain ⟨kp, hkp, hkpk⟩ := List.mem_map.mp hkg
        have hkpd : (k, kp.2) ∈ d₀ := by
          rw [← hkpk]
          exact hgsub kp hkp
        have : p₀ = kp.2 := nodupKeys_eq hnd hkd hkpd
        have hn0 : p₀.name = n := by
          rw [this]
          exact hgname kp hkp
        have : n ∈ ns' := by
          rw [← hn0]
          exact hns
        exact (List.nodup_cons.mp hnsnd).1 this
      obtain ⟨x, hx, hx1, hxn, hxv⟩ := hkeep' (k, p) hpd hknotg
      refine ⟨x.2, ?_, ?_, ?_⟩
      · have hx1' : x.1 = k := hx1
        rw [← hx1']
        exact hx
      · have hxn' : x.2.name = p.name := hxn
        rw [hxn']
        exact hpn
      · have hxv' : x.2.version = p.version := hxv
        rw [hxv']
        exact hpv

theorem closureB_iff (deps : List (String × Package)) :
    closureB deps = true ↔ ClosureP deps := by
  simp only [closureB, ClosureP, List.all_eq_true, List.any_eq_true,
    Bool.and_eq_true, beq_iff_eq]

/-- C4 (amended): the dedup pass preserves the closure invariant — for a
tree with unique keys whose node versions parse as semver, if every
dependency entry was satisfied before `deduplicate_tree`, it still is
afterwards (a removal rewrites every entry on that name to the preferred
version, which the retained preferred node satisfies).  A
lower-versioned node is retained when no caller's range admits the
preferred version (witnessed by the one-caller fixture, kept verbatim);
it is removed as soon as any single caller admits the preferred version,
even if another caller's range excludes it. -/
theorem c4_amended_closure_preserved (deps : List (String × Package))
    (hnd : (deps.map Prod.fst).Nodup) (hv : versionsParseB deps = true)
    (hc : closureB deps = true) :
    closureB (deduplicateTree deps) = true ∧ deduplicateTree demoC4r = demoC4r := by
  refine ⟨?_, rfl⟩
  rw [closureB_iff] at hc ⊢
  have hv' : ∀ kp ∈ deps, (SemVer.parse kp.2.version).isSome = true := by
    intro kp hkp
    have := List.all_eq_true.mp hv kp hkp
    simpa using this
  unfold deduplicateTree
  exact foldGroups_spec deps hnd hv' (groupNames deps)
    (dedupFirst_nodup _) deps hc
    (fun kp hkp => ⟨kp.2, hkp, rfl, rfl⟩)
    (fun k p₀ hkd _ => ⟨p₀, hkd, rfl, rfl⟩)

/-- C4 witness: the amended theorem applied to the two-caller fixture —
its closure invariant holds before the pass and still holds after. -/
theorem c4_witness :
    closureB (deduplicateTree demoC4) = true ∧ deduplicateTree demoC4r = demoC4r :=
  c4_amended_closure_preserved demoC4 (by decide) (by decide) (by decide)

end RJS
